import Mathlib

/-!
Verification of the pi-IW online-planning core (`online_planning.py`,
`online_planning_learning.py`).

The tree of search nodes is embedded as an arena (a list of entries, each
holding the node's data dictionary and the list of its children's indices),
mirroring the node-arena tree store described by the specification.  The
in-place mutation performed by `compute_return` becomes a fold over the
reverse breadth-first index list that rewrites the arena.  Rewards and
returns are rationals (the Python code uses floats; the algorithms only
use `+`, `*`, `max`, so `ℚ` is an exact model).
-/

/-- One node's data dictionary.  Fields mirror the keys used by the code:
`a` (arrival action), `r` (arrival reward), `R` (backed-up return, absent
until the backup writes it, hence an `Option`), `done` (terminal flag),
`obs` (opaque observation handle, abstracted as a natural number). -/
structure NodeData where
  a : Nat
  r : ℚ
  R : Option ℚ
  done : Bool
  obs : Nat
deriving DecidableEq, Inhabited

/-- The node arena: entry `i` is node `i`'s data together with the list of
its children's indices (ordered, at most one child per action). -/
abbrev Store := List (NodeData × List Nat)

/-- Data dictionary of node `i` (default entry when out of range). -/
def dataAt (ns : Store) (i : Nat) : NodeData := (ns.getD i default).1

/-- Children indices of node `i`. -/
def childAt (ns : Store) (i : Nat) : List Nat := (ns.getD i default).2

/-- Read `node.data["R"]` as a rational, defaulting the absent case.
(The Python code would raise `KeyError` on an absent `"R"`; the theorems
show that whenever the code reads `"R"` it has already been written.) -/
def getRD (ns : Store) (i : Nat) : ℚ := (dataAt ns i).R.getD 0

/-- Write `node.data["R"] = v` on node `i` (no-op when out of range). -/
def updR (ns : Store) (i : Nat) (v : ℚ) : Store :=
  ns.set i ({dataAt ns i with R := some v}, childAt ns i)

/-- The search tree: the node arena plus the root's index. -/
structure SearchTree where
  nodes : Store
  root : Nat
deriving DecidableEq

/-- Number of nodes, `len(tree)`. -/
def SearchTree.size (t : SearchTree) : Nat := t.nodes.length

/-- Children of node `i` in tree `t`. -/
def SearchTree.childrenOf (t : SearchTree) (i : Nat) : List Nat := childAt t.nodes i

/-- Data of node `i` in tree `t`. -/
def SearchTree.dataOf (t : SearchTree) (i : Nat) : NodeData := dataAt t.nodes i

/-- Fuelled breadth-first traversal: pop the queue's head, emit it, enqueue
its children.  The fuel bounds the number of pops; `SearchTree.bfs` passes the
node count, which is enough for any well-formed tree. -/
def bfsAux (t : SearchTree) : Nat → List Nat → List Nat
  | 0, _ => []
  | _ + 1, [] => []
  | fuel + 1, i :: q => i :: bfsAux t fuel (q ++ t.childrenOf i)

/-- Breadth-first order of the tree's nodes, root first. -/
def SearchTree.bfs (t : SearchTree) : List Nat := bfsAux t t.nodes.length [t.root]

/-- Modelled from the spec: `tree.iter_breadth_first_reverse(include_root=False,
include_leaves=True)` — the tree module is not in src; the spec fixes the
order as "reverse breadth-first order (deepest first, root last), excluding
the root". -/
def SearchTree.iter_breadth_first_reverse (t : SearchTree) : List Nat :=
  (t.bfs).reverse.filter (fun i => i ≠ t.root)

/-- `np.max` on a list of rationals (`0` on the empty list, where numpy
would raise; the code only applies it to nonempty children lists). -/
def npMax : List ℚ → ℚ
  | [] => 0
  | x :: xs => xs.foldl max x

/-- The value assigned to node `i` by the loop body of `compute_return`:
its own reward if it is a leaf, otherwise reward plus discounted maximum of
its children's currently stored returns. -/
def backupVal (df : ℚ) (ns : Store) (i : Nat) : ℚ :=
  if (childAt ns i).isEmpty then (dataAt ns i).r
  else (dataAt ns i).r + df * npMax ((childAt ns i).map (getRD ns))

/-- One iteration of `compute_return`'s loop on node `i`. -/
def backupStep (df : ℚ) (ns : Store) (i : Nat) : Store :=
  updR ns i (backupVal df ns i)

/-- The whole loop of `compute_return` over a list of node indices. -/
def backupRun (df : ℚ) (ns : Store) (l : List Nat) : Store :=
  l.foldl (backupStep df) ns

/-- `compute_return(tree, discount_factor)`: iterate over the non-root
nodes in reverse breadth-first order, storing each node's backed-up
return. -/
def compute_return (t : SearchTree) (df : ℚ) : SearchTree :=
  { t with nodes := backupRun df t.nodes t.iter_breadth_first_reverse }

/-- Well-formedness of a tree: the root is a valid index, the breadth-first
traversal visits valid indices, visits no node twice, and lists every
parent strictly before each of its children (the spec's invariant that
every non-root node is reachable from the root by exactly one path). -/
def WF (t : SearchTree) : Prop :=
  t.root < t.nodes.length ∧
  (∀ i ∈ t.bfs, i < t.nodes.length) ∧
  t.bfs.Nodup ∧
  ∀ i ∈ t.bfs, ∀ j ∈ t.childrenOf i,
    j ∈ t.bfs ∧ t.bfs.indexOf i < t.bfs.indexOf j

instance (t : SearchTree) : Decidable (WF t) := by
  unfold WF; infer_instance

/-- A single-node tree: a root carrying reward `5`, no children. -/
def oneNodeTree : SearchTree := ⟨[(⟨0, 5, none, false, 0⟩, [])], 0⟩

/-- The two-level binary example tree of the specification: root `0` with
children `1` (action 0, reward 0) and `2` (action 1, reward 0); node `1`
has the single child `3` (reward 1), node `2` the single child `4`
(reward 0). -/
def exampleTree : SearchTree :=
  ⟨[(⟨0, 0, none, false, 10⟩, [1, 2]),
    (⟨0, 0, none, false, 11⟩, [3]),
    (⟨1, 0, none, false, 12⟩, [4]),
    (⟨0, 1, none, false, 13⟩, []),
    (⟨0, 0, none, false, 14⟩, [])], 0⟩

/-- Two stores that agree on shape and on all data except possibly the
stored returns of the nodes still to be processed. -/
def AgreeExcept (ns ns' : Store) (l : List Nat) : Prop :=
  ns.length = ns'.length ∧
  ∀ j, childAt ns j = childAt ns' j ∧
    (dataAt ns j).a = (dataAt ns' j).a ∧
    (dataAt ns j).r = (dataAt ns' j).r ∧
    (dataAt ns j).done = (dataAt ns' j).done ∧
    (dataAt ns j).obs = (dataAt ns' j).obs ∧
    (j ∉ l → dataAt ns j = dataAt ns' j)

/-- A uniform probability vector of the given size. -/
def uniformPmf (n : Nat) : List ℚ := List.replicate n (1 / (n : ℚ))

/-- Pairwise maximum on extended values, where `none` stands for the
`-inf` used by `Q.fill(-np.inf)` (strictly below every rational). -/
def omax2 : Option ℚ → Option ℚ → Option ℚ
  | none, o => o
  | some x, none => some x
  | some x, some y => some (max x y)

/-- Maximum of a vector of extended values (`none` when all are `-inf`). -/
def omax (l : List (Option ℚ)) : Option ℚ := l.foldl omax2 none

/-- Modelled from the spec: the zero-temperature branch of `utils.softmax`
(not in src).  The spec defines temperature `0` as the limiting "hard-max
with ties broken uniformly" distribution; when every logit is `-inf` all
slots tie, giving the uniform distribution. -/
def softmaxZero (q : List (Option ℚ)) : List ℚ :=
  match omax q with
  | none => uniformPmf q.length
  | some m => q.map (fun o =>
      if o = some m then 1 / ((q.countP (fun o => decide (o = some m))) : ℚ) else 0)

/-- Modelled from the spec: the positive-temperature branch of
`utils.softmax` (not in src).  The exponential weight `exp(x / temp)` is
abstracted as a parameter `w` (assumed positive in the theorems); a `-inf`
logit (`none`) weighs `0`, so it "saturates to 0" after normalization.
When the total weight is zero (every logit `-inf`) the result is the
uniform distribution, the deterministic value the spec requires for the
degenerate case. -/
def weightsOf (w : ℚ → ℚ) (q : List (Option ℚ)) : List ℚ :=
  q.map (fun o => (o.map w).getD 0)

def softmaxPos (w : ℚ → ℚ) (q : List (Option ℚ)) : List ℚ :=
  if (weightsOf w q).sum = 0 then uniformPmf q.length
  else (weightsOf w q).map (fun x => x / (weightsOf w q).sum)

/-- Modelled from the spec: `utils.softmax(Q, temp)` (not in src),
dispatching on zero vs non-zero temperature. -/
def softmax (q : List (Option ℚ)) (temp : ℚ) (w : ℚ → ℚ) : List ℚ :=
  if temp = 0 then softmaxZero q else softmaxPos w q

/-- The Q-vector built by `softmax_Q_tree_policy`: a vector of size
`n_actions` filled with `-inf` (`none`), then `Q[child.data["a"]] =
child.data["R"]` for each direct child of the root.  (numpy would raise on
an out-of-range action index; `List.set` is a no-op there, and the
theorems assume action indices are in range.) -/
def buildQ (t : SearchTree) (n_actions : Nat) : List (Option ℚ) :=
  (t.childrenOf t.root).foldl
    (fun Q c => Q.set ((t.dataOf c).a) ((t.dataOf c).R))
    (List.replicate n_actions none)

/-- `softmax_Q_tree_policy(tree, n_actions, discount_factor, temp)`.
The in-place mutation performed by its `compute_return` call is made
explicit: the function returns the policy together with the updated tree.
The extra parameter `w` abstracts the exponential weight of the non-zero
temperature branch of the modelled `utils.softmax` (unused at `temp = 0`,
the only temperature the drivers use). -/
def softmax_Q_tree_policy (tree : SearchTree) (n_actions : Nat)
    (discount_factor : ℚ) (temp : ℚ) (w : ℚ → ℚ) : List ℚ × SearchTree :=
  (softmax (buildQ (compute_return tree discount_factor) n_actions) temp w,
    compute_return tree discount_factor)

/-- Probability vector of size `n`: the right length, nonnegative entries,
total mass one. -/
def IsProbVec (n : Nat) (v : List ℚ) : Prop :=
  v.length = n ∧ (∀ x ∈ v, 0 ≤ x) ∧ v.sum = 1

/-- Modelled from the spec: `RolloutIW.plan(tree, successor_fn,
stop_condition_fn)` (not in src).  The spec fixes the loop shape: the stop
condition is checked between completed single-step expansions; one
expansion asks the successor function for one new node; when every
frontier node is terminal or non-novel no expansion is possible and the
planner self-terminates.  `expandOne` abstracts one single-node expansion
(`none` when the reachable space is exhausted); the fuel argument makes
the recursion structural and the theorems hold for every fuel. -/
def plan (stop : SearchTree → Bool) (expandOne : SearchTree → Option SearchTree) :
    Nat → SearchTree → SearchTree
  | 0, t => t
  | fuel + 1, t =>
      if stop t then t
      else
        match expandOne t with
        | none => t
        | some t' => plan stop expandOne fuel t'

/-- One record appended to the dataset by `planning_step`. -/
structure Record where
  observations : Nat
  target_policy : List ℚ
deriving DecidableEq

/-- `planning_step(actor, planner, dataset, policy_fn, tree_budget,
cache_subtree, discount_factor)` from `online_planning_learning.py`.
The actor is represented by its tree; `planFn` models
`planner.plan(tree, successor_fn, stop_condition_fn, policy_fn)` applied
to the budget predicate that `planning_step` builds; `stepFn` models
`actor.step(a, cache_subtree)`, returning the previous root's data, the
new root's data, and the re-rooted tree; `sample` models
`utils.sample_pmf` (index drawn from the policy).  The dataset is a list
of records; appending models `dataset.append(...)`. -/
def planning_step (tree : SearchTree)
    (planFn : (SearchTree → Bool) → SearchTree → SearchTree)
    (stepFn : SearchTree → Nat → Bool → NodeData × NodeData × SearchTree)
    (sample : List ℚ → Nat) (dataset : List Record)
    (tree_budget : Nat) (cache_subtree : Bool)
    (branching_factor : Nat) (discount_factor : ℚ) :
    (ℚ × Bool) × List Record × SearchTree :=
  let nodes_before_planning := tree.size
  let budget_fn := fun u : SearchTree => u.size - nodes_before_planning == tree_budget
  let t1 := planFn budget_fn tree
  let pr := softmax_Q_tree_policy t1 branching_factor discount_factor 0 (fun _ => 1)
  let tree_policy := pr.1
  let a := sample tree_policy
  let st := stepFn pr.2 a cache_subtree
  let dataset' := dataset ++ [⟨(st.1).obs, tree_policy⟩]
  ((st.2.1.r, st.2.1.done), (dataset', st.2.2))

/-- A two-node tree: root `0` with the single child `1` reached by action
`0` with reward `3`. -/
def pairTree : SearchTree :=
  ⟨[(⟨0, 0, none, false, 20⟩, [1]), (⟨0, 3, none, false, 21⟩, [])], 0⟩

/-- An expansion model that appends one fresh node to the arena. -/
def growOne (u : SearchTree) : Option SearchTree :=
  some ⟨u.nodes ++ [(default, [])], u.root⟩

section BackupLemmas

variable (df : ℚ)

theorem length_updR (ns : Store) (i : Nat) (v : ℚ) :
    (updR ns i v).length = ns.length := by
  simp [updR]

theorem length_backupStep (ns : Store) (i : Nat) :
    (backupStep df ns i).length = ns.length := by
  simp [backupStep, length_updR]

theorem length_backupRun (ns : Store) (l : List Nat) :
    (backupRun df ns l).length = ns.length := by
  induction l generalizing ns with
  | nil => rfl
  | cons i l ih => simp [backupRun, List.foldl_cons] at ih ⊢
                   rw [ih, length_backupStep]

theorem dataAt_updR_ne (ns : Store) (i j : Nat) (v : ℚ) (h : j ≠ i) :
    dataAt (updR ns i v) j = dataAt ns j := by
  simp only [dataAt, updR, List.getD, List.get?_eq_getElem?]
  rw [List.getElem?_set_ne (Ne.symm h)]

theorem childAt_updR_ne (ns : Store) (i j : Nat) (v : ℚ) (h : j ≠ i) :
    childAt (updR ns i v) j = childAt ns j := by
  simp only [childAt, updR, List.getD, List.get?_eq_getElem?]
  rw [List.getElem?_set_ne (Ne.symm h)]

theorem dataAt_updR_self (ns : Store) (i : Nat) (v : ℚ) (h : i < ns.length) :
    dataAt (updR ns i v) i = {dataAt ns i with R := some v} := by
  simp only [dataAt, updR, List.getD, List.get?_eq_getElem?]
  rw [List.getElem?_set_self h]
  rfl

theorem updR_out (ns : Store) (i : Nat) (v : ℚ) (h : ¬ i < ns.length) :
    updR ns i v = ns := by
  simp [updR, List.set_eq_of_length_le (Nat.le_of_not_lt h)]

theorem childAt_updR (ns : Store) (i j : Nat) (v : ℚ) :
    childAt (updR ns i v) j = childAt ns j := by
  by_cases h : j = i
  · subst h
    by_cases hlt : j < ns.length
    · simp only [childAt, updR, List.getD, List.get?_eq_getElem?]
      rw [List.getElem?_set_self hlt]
      rfl
    · rw [updR_out ns j v hlt]
  · exact childAt_updR_ne ns i j v h

theorem childAt_backupStep (ns : Store) (i j : Nat) :
    childAt (backupStep df ns i) j = childAt ns j :=
  childAt_updR ns i j _

theorem childAt_backupRun (ns : Store) (l : List Nat) (j : Nat) :
    childAt (backupRun df ns l) j = childAt ns j := by
  induction l generalizing ns with
  | nil => rfl
  | cons i l ih =>
      show childAt (backupRun df (backupStep df ns i) l) j = childAt ns j
      rw [ih, childAt_backupStep]

theorem dataAt_backupRun_not_mem (ns : Store) (l : List Nat) (j : Nat)
    (h : j ∉ l) : dataAt (backupRun df ns l) j = dataAt ns j := by
  induction l generalizing ns with
  | nil => rfl
  | cons i l ih =>
      show dataAt (backupRun df (backupStep df ns i) l) j = dataAt ns j
      rw [ih _ (fun hm => h (List.mem_cons_of_mem i hm)),
        backupStep, dataAt_updR_ne _ _ _ _
          (fun hj => h (by rw [hj]; exact List.mem_cons_self i l))]

/-- Every field except `R` survives the backup loop on every node. -/
theorem dataAt_backupRun_fields (ns : Store) (l : List Nat) (j : Nat) :
    (dataAt (backupRun df ns l) j).a = (dataAt ns j).a ∧
    (dataAt (backupRun df ns l) j).r = (dataAt ns j).r ∧
    (dataAt (backupRun df ns l) j).done = (dataAt ns j).done ∧
    (dataAt (backupRun df ns l) j).obs = (dataAt ns j).obs := by
  induction l generalizing ns with
  | nil => exact ⟨rfl, rfl, rfl, rfl⟩
  | cons i l ih =>
      have step : (dataAt (backupStep df ns i) j).a = (dataAt ns j).a ∧
          (dataAt (backupStep df ns i) j).r = (dataAt ns j).r ∧
          (dataAt (backupStep df ns i) j).done = (dataAt ns j).done ∧
          (dataAt (backupStep df ns i) j).obs = (dataAt ns j).obs := by
        by_cases h : j = i
        · subst h
          by_cases hlt : j < ns.length
          · rw [backupStep, dataAt_updR_self _ _ _ hlt]
            exact ⟨rfl, rfl, rfl, rfl⟩
          · rw [backupStep, updR_out _ _ _ hlt]
            exact ⟨rfl, rfl, rfl, rfl⟩
        · rw [backupStep, dataAt_updR_ne _ _ _ _ h]
          exact ⟨rfl, rfl, rfl, rfl⟩
      have run := ih (backupStep df ns i)
      show (dataAt (backupRun df (backupStep df ns i) l) j).a = _ ∧ _ ∧ _ ∧ _
      exact ⟨run.1.trans step.1, run.2.1.trans step.2.1,
        run.2.2.1.trans step.2.2.1, run.2.2.2.trans step.2.2.2⟩

/-- After the backup loop over `l`, every processed node holds its Bellman
value computed from the final stored returns of its children, provided no
node is processed twice, children are processed before their parents, no
node is its own child, and all processed indices are valid. -/
theorem backupRun_spec (l : List Nat) (ns : Store)
    (hnd : l.Nodup)
    (hpw : l.Pairwise (fun x y => y ∉ childAt ns x))
    (hirr : ∀ i ∈ l, i ∉ childAt ns i)
    (hvalid : ∀ i ∈ l, i < ns.length) :
    ∀ i ∈ l, dataAt (backupRun df ns l) i =
      { dataAt ns i with R := some (
          if (childAt ns i).isEmpty then (dataAt ns i).r
          else (dataAt ns i).r +
            df * npMax ((childAt ns i).map (getRD (backupRun df ns l)))) } := by
  induction l generalizing ns with
  | nil => intro i hi; cases hi
  | cons i0 l ih =>
    obtain ⟨hpw0, hpwl⟩ := List.pairwise_cons.mp hpw
    obtain ⟨hnd0, hndl⟩ := List.nodup_cons.mp hnd
    have hv0 : i0 < ns.length := hvalid i0 (List.mem_cons_self _ _)
    have hchild_out : ∀ j ∈ childAt ns i0, j ∉ (i0 :: l) := by
      intro j hj hmem
      rcases List.mem_cons.mp hmem with h | h
      · exact hirr i0 (List.mem_cons_self _ _) (h ▸ hj)
      · exact hpw0 j h hj
    have hca : ∀ j, childAt (backupStep df ns i0) j = childAt ns j :=
      fun j => childAt_backupStep df ns i0 j
    have hstep : backupRun df ns (i0 :: l) = backupRun df (backupStep df ns i0) l := rfl
    intro i hi
    rcases List.mem_cons.mp hi with rfl | hi'
    · -- the head node: written once, then untouched
      have h1 : dataAt (backupRun df (backupStep df ns i) l) i
          = dataAt (backupStep df ns i) i :=
        dataAt_backupRun_not_mem df _ l i hnd0
      have h2 : dataAt (backupStep df ns i) i
          = {dataAt ns i with R := some (backupVal df ns i)} :=
        dataAt_updR_self ns i _ hv0
      have hreads : ∀ j ∈ childAt ns i,
          getRD (backupRun df ns (i :: l)) j = getRD ns j := by
        intro j hj
        have hjn : j ∉ l := fun hm => hchild_out j hj (List.mem_cons_of_mem _ hm)
        have hji0 : j ≠ i := fun he =>
          hchild_out j hj (by rw [he]; exact List.mem_cons_self _ _)
        rw [hstep, getRD, dataAt_backupRun_not_mem df _ l j hjn,
          backupStep, dataAt_updR_ne _ _ _ _ hji0, getRD]
      have hval : backupVal df ns i =
          (if (childAt ns i).isEmpty then (dataAt ns i).r
           else (dataAt ns i).r +
             df * npMax ((childAt ns i).map (getRD (backupRun df ns (i :: l))))) := by
        unfold backupVal
        by_cases hc : (childAt ns i).isEmpty
        · simp only [hc, if_true]
        · simp only [hc, if_false]
          rw [List.map_congr_left (fun j hj => (hreads j hj))]
      rw [hstep, h1, h2, hval, hstep]
    · -- a later node: use the induction hypothesis on the updated store
      have hne : i ≠ i0 := fun he => hnd0 (he ▸ hi')
      have ihr := ih (backupStep df ns i0) hndl
        (hpwl.imp (by intro a b hab; rw [hca]; exact hab))
        (fun k hk => by rw [hca]; exact hirr k (List.mem_cons_of_mem _ hk))
        (fun k hk => by rw [length_backupStep]; exact hvalid k (List.mem_cons_of_mem _ hk))
        i hi'
      rw [hstep, ihr, hca, backupStep, dataAt_updR_ne _ _ _ _ hne]

end BackupLemmas

section WFLemmas

/-- A well-formed tree's breadth-first order starts with the root. -/
theorem bfs_head (t : SearchTree) (h : 0 < t.nodes.length) :
    t.bfs = t.root :: bfsAux t (t.nodes.length - 1) (t.childrenOf t.root) := by
  unfold SearchTree.bfs
  cases hn : t.nodes.length with
  | zero => omega
  | succ m => simp [bfsAux]

theorem root_mem_bfs (t : SearchTree) (h : 0 < t.nodes.length) :
    t.root ∈ t.bfs := by
  rw [bfs_head t h]; exact List.mem_cons_self _ _

theorem indexOf_root (t : SearchTree) (h : 0 < t.nodes.length) :
    t.bfs.indexOf t.root = 0 := by
  rw [bfs_head t h]; exact List.indexOf_cons_self _ _

/-- In a well-formed tree no node reachable by the traversal has the root
among its children. -/
theorem child_ne_root (t : SearchTree) (h : WF t) (i j : Nat)
    (hi : i ∈ t.bfs) (hj : j ∈ t.childrenOf i) : j ≠ t.root := by
  obtain ⟨h1, _, _, h4⟩ := h
  intro he
  have := (h4 i hi j hj).2
  rw [he, indexOf_root t (Nat.lt_of_le_of_lt (Nat.zero_le _) h1)] at this
  omega

/-- Children of traversed nodes are traversed. -/
theorem child_mem_bfs (t : SearchTree) (h : WF t) (i j : Nat)
    (hi : i ∈ t.bfs) (hj : j ∈ t.childrenOf i) : j ∈ t.bfs :=
  (h.2.2.2 i hi j hj).1

/-- In breadth-first order no earlier node is a child of a later one. -/
theorem bfs_pairwise_not_child (t : SearchTree) (h : WF t) :
    t.bfs.Pairwise (fun x y => x ∉ t.childrenOf y) := by
  obtain ⟨h1, h2, h3, h4⟩ := h
  rw [List.pairwise_iff_getElem]
  intro a b ha hb hab
  intro hmem
  have := (h4 (t.bfs[b]) (List.getElem_mem hb) (t.bfs[a]) hmem).2
  rw [List.indexOf_getElem h3 b hb, List.indexOf_getElem h3 a ha] at this
  omega

/-- The reverse breadth-first iteration processes children before
parents. -/
theorem order_pairwise (t : SearchTree) (h : WF t) :
    t.iter_breadth_first_reverse.Pairwise (fun x y => y ∉ childAt t.nodes x) := by
  have hrev : t.bfs.reverse.Pairwise (fun x y => y ∉ t.childrenOf x) :=
    List.pairwise_reverse.mpr (bfs_pairwise_not_child t h)
  exact List.Pairwise.sublist (List.filter_sublist _) hrev

theorem mem_order (t : SearchTree) (i : Nat) :
    i ∈ t.iter_breadth_first_reverse ↔ i ∈ t.bfs ∧ i ≠ t.root := by
  simp [SearchTree.iter_breadth_first_reverse, List.mem_filter, List.mem_reverse]

theorem order_nodup (t : SearchTree) (h : WF t) :
    t.iter_breadth_first_reverse.Nodup :=
  List.Nodup.filter _ (List.nodup_reverse.mpr h.2.2.1)

theorem order_irr (t : SearchTree) (h : WF t) :
    ∀ i ∈ t.iter_breadth_first_reverse, i ∉ childAt t.nodes i := by
  intro i hi hmem
  have hib := ((mem_order t i).mp hi).1
  have := (h.2.2.2 i hib i hmem).2
  omega

theorem order_valid (t : SearchTree) (h : WF t) :
    ∀ i ∈ t.iter_breadth_first_reverse, i < t.nodes.length := by
  intro i hi
  exact h.2.1 i ((mem_order t i).mp hi).1

/-- The Bellman-backup characterization of `compute_return` on well-formed
trees: every non-root node ends up with `R` equal to its reward (leaf) or
its reward plus the discounted maximum of its children's final stored
returns (internal node), all other fields untouched. -/
theorem compute_return_spec (t : SearchTree) (df : ℚ) (h : WF t) :
    ∀ i ∈ t.bfs, i ≠ t.root →
      (compute_return t df).dataOf i =
        { t.dataOf i with R := some (
            if (t.childrenOf i).isEmpty then (t.dataOf i).r
            else (t.dataOf i).r + df * npMax ((t.childrenOf i).map
              (getRD (compute_return t df).nodes))) } := by
  intro i hib hir
  exact backupRun_spec df t.iter_breadth_first_reverse t.nodes
    (order_nodup t h) (order_pairwise t h) (order_irr t h) (order_valid t h)
    i ((mem_order t i).mpr ⟨hib, hir⟩)

end WFLemmas

section FrameLemmas

/-- `compute_return` leaves the root's whole data dictionary untouched:
the traversal is built with `include_root=False`. -/
theorem compute_return_root_data (t : SearchTree) (df : ℚ) :
    (compute_return t df).dataOf t.root = t.dataOf t.root := by
  have hnm : t.root ∉ t.iter_breadth_first_reverse := by
    intro hm
    exact ((mem_order t t.root).mp hm).2 rfl
  exact dataAt_backupRun_not_mem df t.nodes _ t.root hnm

theorem compute_return_children (t : SearchTree) (df : ℚ) (j : Nat) :
    (compute_return t df).childrenOf j = t.childrenOf j :=
  childAt_backupRun df t.nodes _ j

theorem compute_return_length (t : SearchTree) (df : ℚ) :
    (compute_return t df).nodes.length = t.nodes.length :=
  length_backupRun df t.nodes _

theorem compute_return_root (t : SearchTree) (df : ℚ) :
    (compute_return t df).root = t.root := rfl

theorem compute_return_fields (t : SearchTree) (df : ℚ) (j : Nat) :
    ((compute_return t df).dataOf j).a = (t.dataOf j).a ∧
    ((compute_return t df).dataOf j).r = (t.dataOf j).r ∧
    ((compute_return t df).dataOf j).done = (t.dataOf j).done ∧
    ((compute_return t df).dataOf j).obs = (t.dataOf j).obs :=
  dataAt_backupRun_fields df t.nodes _ j

theorem bfsAux_congr (t t' : SearchTree)
    (hch : ∀ j, t'.childrenOf j = t.childrenOf j) :
    ∀ fuel q, bfsAux t' fuel q = bfsAux t fuel q := by
  intro fuel
  induction fuel with
  | zero => intro q; rfl
  | succ m ih =>
      intro q
      cases q with
      | nil => rfl
      | cons i q => simp only [bfsAux, hch, ih]

theorem compute_return_bfs (t : SearchTree) (df : ℚ) :
    (compute_return t df).bfs = t.bfs := by
  unfold SearchTree.bfs
  rw [compute_return_length, compute_return_root,
    bfsAux_congr t (compute_return t df) (compute_return_children t df)]

theorem compute_return_order (t : SearchTree) (df : ℚ) :
    (compute_return t df).iter_breadth_first_reverse
      = t.iter_breadth_first_reverse := by
  unfold SearchTree.iter_breadth_first_reverse
  rw [compute_return_bfs, compute_return_root]

/-- Well-formedness survives `compute_return`. -/
theorem compute_return_WF (t : SearchTree) (df : ℚ) (h : WF t) :
    WF (compute_return t df) := by
  obtain ⟨h1, h2, h3, h4⟩ := h
  refine ⟨?_, ?_, ?_, ?_⟩
  · rw [compute_return_length, compute_return_root]; exact h1
  · intro i hi
    rw [compute_return_length]
    exact h2 i (by rwa [compute_return_bfs] at hi)
  · rw [compute_return_bfs]; exact h3
  · intro i hi j hj
    rw [compute_return_bfs] at hi ⊢
    rw [compute_return_children] at hj
    exact h4 i hi j hj

end FrameLemmas

section IdempotenceLemmas

theorem nodeData_ext (d d' : NodeData) (ha : d.a = d'.a) (hr : d.r = d'.r)
    (hR : d.R = d'.R) (hdone : d.done = d'.done) (hobs : d.obs = d'.obs) :
    d = d' := by
  cases d; cases d'; simp_all

theorem dataAt_out (ns : Store) (j : Nat) (h : ¬ j < ns.length) :
    dataAt ns j = default := by
  simp only [dataAt, List.getD, List.get?_eq_getElem?,
    List.getElem?_eq_none (Nat.le_of_not_lt h), Option.getD_none]
  rfl

theorem store_eq_of_agree (ns ns' : Store) (hlen : ns.length = ns'.length)
    (hd : ∀ j, dataAt ns j = dataAt ns' j)
    (hc : ∀ j, childAt ns j = childAt ns' j) :
    ns = ns' := by
  apply List.ext_getElem?
  intro j
  by_cases hj : j < ns.length
  · have hj' : j < ns'.length := hlen ▸ hj
    rw [List.getElem?_eq_getElem hj, List.getElem?_eq_getElem hj']
    have hdj := hd j
    have hcj := hc j
    simp only [dataAt, childAt] at hdj hcj
    rw [List.getD_eq_getElem ns default hj,
      List.getD_eq_getElem ns' default hj'] at hdj hcj
    exact congrArg some (Prod.ext hdj hcj)
  · rw [List.getElem?_eq_none (Nat.le_of_not_lt hj),
      List.getElem?_eq_none (by omega)]

/-- Running the backup loop on two stores that differ only in the stored
returns of the nodes about to be processed produces identical stores. -/
theorem backupRun_congr (df : ℚ) (l : List Nat) (ns ns' : Store)
    (hag : AgreeExcept ns ns' l)
    (hpw : l.Pairwise (fun x y => y ∉ childAt ns x))
    (hirr : ∀ i ∈ l, i ∉ childAt ns i) :
    backupRun df ns l = backupRun df ns' l := by
  induction l generalizing ns ns' with
  | nil =>
      exact store_eq_of_agree ns ns' hag.1
        (fun j => (hag.2 j).2.2.2.2.2 (List.not_mem_nil j))
        (fun j => (hag.2 j).1)
  | cons i0 l ih =>
      obtain ⟨hpw0, hpwl⟩ := List.pairwise_cons.mp hpw
      have hchild_out : ∀ j ∈ childAt ns i0, j ∉ (i0 :: l) := by
        intro j hj hmem
        rcases List.mem_cons.mp hmem with h | h
        · exact hirr i0 (List.mem_cons_self _ _) (h ▸ hj)
        · exact hpw0 j h hj
      have hval : backupVal df ns i0 = backupVal df ns' i0 := by
        unfold backupVal
        rw [← (hag.2 i0).1, ← (hag.2 i0).2.2.1]
        have hmap : (childAt ns i0).map (getRD ns)
            = (childAt ns i0).map (getRD ns') := by
          apply List.map_congr_left
          intro j hj
          rw [getRD, getRD, (hag.2 j).2.2.2.2.2 (hchild_out j hj)]
        rw [hmap]
      have hag' : AgreeExcept (backupStep df ns i0) (backupStep df ns' i0) l := by
        constructor
        · rw [length_backupStep, length_backupStep]; exact hag.1
        · intro j
          have hcj : childAt (backupStep df ns i0) j
              = childAt (backupStep df ns' i0) j := by
            rw [childAt_backupStep, childAt_backupStep]; exact (hag.2 j).1
          by_cases hji : j = i0
          · subst hji
            by_cases hlt : j < ns.length
            · have hlt' : j < ns'.length := hag.1 ▸ hlt
              have e1 : dataAt (backupStep df ns j) j
                  = {dataAt ns j with R := some (backupVal df ns j)} :=
                dataAt_updR_self ns j _ hlt
              have e2 : dataAt (backupStep df ns' j) j
                  = {dataAt ns' j with R := some (backupVal df ns' j)} :=
                dataAt_updR_self ns' j _ hlt'
              refine ⟨hcj, ?_, ?_, ?_, ?_, fun _ => ?_⟩
              · rw [e1, e2]; exact (hag.2 j).2.1
              · rw [e1, e2]; exact (hag.2 j).2.2.1
              · rw [e1, e2]; exact (hag.2 j).2.2.2.1
              · rw [e1, e2]; exact (hag.2 j).2.2.2.2.1
              · rw [e1, e2, hval]
                exact nodeData_ext _ _ (hag.2 j).2.1 (hag.2 j).2.2.1 rfl
                  (hag.2 j).2.2.2.1 (hag.2 j).2.2.2.2.1
            · have hlt' : ¬ j < ns'.length := fun hc => hlt (hag.1 ▸ hc)
              have e1 : dataAt (backupStep df ns j) j = dataAt ns j := by
                show dataAt (updR ns j (backupVal df ns j)) j = dataAt ns j
                rw [updR_out ns j _ hlt]
              have e2 : dataAt (backupStep df ns' j) j = dataAt ns' j := by
                show dataAt (updR ns' j (backupVal df ns' j)) j = dataAt ns' j
                rw [updR_out ns' j _ hlt']
              rw [dataAt_out ns j hlt] at e1
              rw [dataAt_out ns' j hlt'] at e2
              rw [e1, e2]
              exact ⟨hcj, rfl, rfl, rfl, rfl, fun _ => rfl⟩
          · have e1 : dataAt (backupStep df ns i0) j = dataAt ns j :=
              dataAt_updR_ne ns i0 j _ hji
            have e2 : dataAt (backupStep df ns' i0) j = dataAt ns' j :=
              dataAt_updR_ne ns' i0 j _ hji
            rw [e1, e2]
            refine ⟨hcj, (hag.2 j).2.1, (hag.2 j).2.2.1, (hag.2 j).2.2.2.1,
              (hag.2 j).2.2.2.2.1, fun hjl => ?_⟩
            exact (hag.2 j).2.2.2.2.2
              (fun hm => by
                rcases List.mem_cons.mp hm with h | h
                · exact hji h
                · exact hjl h)
      have hpw' : l.Pairwise (fun x y => y ∉ childAt (backupStep df ns i0) x) :=
        hpwl.imp (by intro a b hab; rw [childAt_backupStep]; exact hab)
      have hirr' : ∀ i ∈ l, i ∉ childAt (backupStep df ns i0) i := by
        intro k hk
        rw [childAt_backupStep]
        exact hirr k (List.mem_cons_of_mem _ hk)
      show backupRun df (backupStep df ns i0) l = backupRun df (backupStep df ns' i0) l
      exact ih _ _ hag' hpw' hirr'

/-- Re-running the whole backup on an already backed-up store changes
nothing: the first run only modified stored returns of processed nodes,
and those are recomputed to the same values. -/
theorem backupRun_idem (df : ℚ) (l : List Nat) (ns : Store)
    (hpw : l.Pairwise (fun x y => y ∉ childAt ns x))
    (hirr : ∀ i ∈ l, i ∉ childAt ns i) :
    backupRun df (backupRun df ns l) l = backupRun df ns l := by
  have hag : AgreeExcept (backupRun df ns l) ns l := by
    constructor
    · rw [length_backupRun]
    · intro j
      refine ⟨childAt_backupRun df ns l j, (dataAt_backupRun_fields df ns l j).1,
        (dataAt_backupRun_fields df ns l j).2.1,
        (dataAt_backupRun_fields df ns l j).2.2.1,
        (dataAt_backupRun_fields df ns l j).2.2.2, fun hj => ?_⟩
      exact dataAt_backupRun_not_mem df ns l j hj
  have hpw2 : l.Pairwise (fun x y => y ∉ childAt (backupRun df ns l) x) :=
    hpw.imp (by intro a b hab; rw [childAt_backupRun]; exact hab)
  have hirr2 : ∀ i ∈ l, i ∉ childAt (backupRun df ns l) i := by
    intro k hk
    rw [childAt_backupRun]
    exact hirr k hk
  exact backupRun_congr df l (backupRun df ns l) ns hag hpw2 hirr2

end IdempotenceLemmas

section PolicyLemmas

theorem getD_set_self_q (Q : List (Option ℚ)) (i : Nat) (x : Option ℚ)
    (h : i < Q.length) : (Q.set i x).getD i none = x := by
  simp [List.getD_eq_getElem?_getD, List.getElem?_set_self h]

theorem getD_set_ne_q (Q : List (Option ℚ)) (i k : Nat) (x : Option ℚ)
    (h : i ≠ k) : (Q.set i x).getD k none = Q.getD k none := by
  simp [List.getD_eq_getElem?_getD, List.getElem?_set_ne h]

theorem getD_replicate_none (n k : Nat) :
    (List.replicate n (none : Option ℚ)).getD k none = none := by
  rcases Nat.lt_or_ge k n with h | h
  · simp [List.getD_eq_getElem?_getD, List.getElem?_replicate_of_lt h]
  · simp [List.getD_eq_getElem?_getD, List.getElem?_replicate, Nat.not_lt.mpr h]

theorem length_foldl_set (t : SearchTree) (cs : List Nat) (Q : List (Option ℚ)) :
    (cs.foldl (fun Q c => Q.set ((t.dataOf c).a) ((t.dataOf c).R)) Q).length
      = Q.length := by
  induction cs generalizing Q with
  | nil => rfl
  | cons c cs ih => rw [List.foldl_cons, ih, List.length_set]

theorem length_buildQ (t : SearchTree) (n : Nat) : (buildQ t n).length = n := by
  rw [buildQ, length_foldl_set, List.length_replicate]

theorem foldl_set_getD_not_mem (t : SearchTree) (cs : List Nat)
    (Q : List (Option ℚ)) (k : Nat) (h : ∀ c ∈ cs, (t.dataOf c).a ≠ k) :
    (cs.foldl (fun Q c => Q.set ((t.dataOf c).a) ((t.dataOf c).R)) Q).getD k none
      = Q.getD k none := by
  induction cs generalizing Q with
  | nil => rfl
  | cons c cs ih =>
      rw [List.foldl_cons, ih _ (fun d hd => h d (List.mem_cons_of_mem _ hd)),
        getD_set_ne_q _ _ _ _ (h c (List.mem_cons_self _ _))]

/-- Actions with no corresponding root child keep their initial `-inf`. -/
theorem buildQ_not_mem (t : SearchTree) (n k : Nat)
    (h : ∀ c ∈ t.childrenOf t.root, (t.dataOf c).a ≠ k) :
    (buildQ t n).getD k none = none := by
  rw [buildQ, foldl_set_getD_not_mem t _ _ k h, getD_replicate_none]

/-- With pairwise-distinct root-child actions, each child's slot holds that
child's stored return. -/
theorem foldl_set_getD_mem (t : SearchTree) (cs : List Nat)
    (Q : List (Option ℚ)) (c : Nat) (hc : c ∈ cs)
    (hnd : (cs.map (fun d => (t.dataOf d).a)).Nodup)
    (hlen : (t.dataOf c).a < Q.length) :
    (cs.foldl (fun Q d => Q.set ((t.dataOf d).a) ((t.dataOf d).R)) Q).getD
      ((t.dataOf c).a) none = (t.dataOf c).R := by
  induction cs generalizing Q with
  | nil => cases hc
  | cons c0 cs ih =>
      rw [List.map_cons, List.nodup_cons] at hnd
      rcases List.mem_cons.mp hc with rfl | hmem
      · rw [List.foldl_cons,
          foldl_set_getD_not_mem t cs _ _
            (fun d hd he => hnd.1 (by rw [← he]; exact List.mem_map_of_mem _ hd)),
          getD_set_self_q _ _ _ hlen]
      · rw [List.foldl_cons]
        exact ih _ hmem hnd.2 (by rwa [List.length_set])

theorem buildQ_mem (t : SearchTree) (n : Nat) (c : Nat)
    (hc : c ∈ t.childrenOf t.root)
    (hnd : ((t.childrenOf t.root).map (fun d => (t.dataOf d).a)).Nodup)
    (hlen : (t.dataOf c).a < n) :
    (buildQ t n).getD ((t.dataOf c).a) none = (t.dataOf c).R := by
  rw [buildQ]
  exact foldl_set_getD_mem t _ _ c hc hnd (by rwa [List.length_replicate])

theorem foldl_omax2_none_forall (l : List (Option ℚ)) (acc : Option ℚ)
    (h : l.foldl omax2 acc = none) : acc = none ∧ ∀ o ∈ l, o = none := by
  induction l generalizing acc with
  | nil => exact ⟨h, by intro o ho; cases ho⟩
  | cons o l ih =>
      obtain ⟨h1, h2⟩ := ih (omax2 acc o) h
      have hao : acc = none ∧ o = none := by
        cases acc <;> cases o <;> simp [omax2] at h1 <;> exact ⟨rfl, rfl⟩
      refine ⟨hao.1, fun p hp => ?_⟩
      rcases List.mem_cons.mp hp with rfl | hp
      · exact hao.2
      · exact h2 p hp

theorem foldl_omax2_some_mem (l : List (Option ℚ)) (acc : Option ℚ) (m : ℚ)
    (h : l.foldl omax2 acc = some m) : acc = some m ∨ some m ∈ l := by
  induction l generalizing acc with
  | nil => exact Or.inl h
  | cons o l ih =>
      rcases ih (omax2 acc o) h with h1 | h1
      · cases acc with
        | none =>
            cases o with
            | none => exact absurd h1 (by simp [omax2])
            | some y =>
                exact Or.inr (by
                  simp [omax2] at h1
                  rw [h1]
                  exact List.mem_cons_self _ _)
        | some x =>
            cases o with
            | none => exact Or.inl h1
            | some y =>
                simp [omax2] at h1
                rcases max_choice x y with hxy | hxy
                · exact Or.inl (by rw [← h1, hxy])
                · exact Or.inr (by rw [← h1, hxy]; exact List.mem_cons_self _ _)
      · exact Or.inr (List.mem_cons_of_mem _ h1)

theorem omax_all_none (q : List (Option ℚ)) (h : ∀ o ∈ q, o = none) :
    omax q = none := by
  rw [omax]
  induction q with
  | nil => rfl
  | cons o l ih =>
      have ho := h o (List.mem_cons_self _ _)
      subst ho
      exact ih (fun p hp => h p (List.mem_cons_of_mem _ hp))

theorem getD_map_oq (f : Option ℚ → ℚ) (q : List (Option ℚ)) (k : Nat)
    (hk : k < q.length) :
    (q.map f).getD k 0 = f (q.getD k none) := by
  rw [List.getD_eq_getElem _ _ (by simpa), List.getElem_map,
    List.getD_eq_getElem _ _ hk]

theorem getD_map_qq (g : ℚ → ℚ) (l : List ℚ) (k : Nat) (hk : k < l.length) :
    (l.map g).getD k 0 = g (l.getD k 0) := by
  rw [List.getD_eq_getElem _ _ (by simpa), List.getElem_map,
    List.getD_eq_getElem _ _ hk]

theorem sum_map_ite_count (q : List (Option ℚ)) (m : ℚ) (c : ℚ) :
    (q.map (fun o => if o = some m then c else 0)).sum
      = (q.countP (fun o => decide (o = some m))) * c := by
  induction q with
  | nil => simp
  | cons o q ih =>
      by_cases h : o = some m <;>
        simp [h, ih, List.countP_cons] <;> push_cast <;> ring

theorem sum_pos_of_mem (l : List ℚ) (hnn : ∀ x ∈ l, 0 ≤ x) (x : ℚ)
    (hx : x ∈ l) (hxp : 0 < x) : 0 < l.sum := by
  induction l with
  | nil => cases hx
  | cons y l ih =>
      have hls : 0 ≤ l.sum :=
        List.sum_nonneg (fun z hz => hnn z (List.mem_cons_of_mem _ hz))
      rcases List.mem_cons.mp hx with rfl | h
      · rw [List.sum_cons]; linarith
      · have hy : 0 ≤ y := hnn y (List.mem_cons_self _ _)
        have := ih (fun z hz => hnn z (List.mem_cons_of_mem _ hz)) h
        rw [List.sum_cons]; linarith

theorem uniformPmf_length (n : Nat) : (uniformPmf n).length = n :=
  List.length_replicate n _

theorem uniformPmf_nonneg (n : Nat) : ∀ x ∈ uniformPmf n, 0 ≤ x := by
  intro x hx
  rw [uniformPmf, List.mem_replicate] at hx
  rw [hx.2]
  positivity

theorem uniformPmf_sum (n : Nat) (h : 0 < n) : (uniformPmf n).sum = 1 := by
  rw [uniformPmf, List.sum_replicate, nsmul_eq_mul, mul_one_div,
    div_self (by positivity : (n : ℚ) ≠ 0)]

theorem softmaxZero_length (q : List (Option ℚ)) :
    (softmaxZero q).length = q.length := by
  unfold softmaxZero
  split
  · exact uniformPmf_length _
  · exact List.length_map _ _

theorem softmaxZero_nonneg (q : List (Option ℚ)) :
    ∀ x ∈ softmaxZero q, 0 ≤ x := by
  unfold softmaxZero
  split
  · exact uniformPmf_nonneg _
  · rename_i m hm
    intro x hx
    rw [List.mem_map] at hx
    obtain ⟨o, ho, rfl⟩ := hx
    by_cases h : o = some m
    · simp only [h, if_true]
      positivity
    · simp only [h, if_false]
      exact le_refl 0

theorem softmaxZero_sum (q : List (Option ℚ)) (hq : 0 < q.length) :
    (softmaxZero q).sum = 1 := by
  unfold softmaxZero
  split
  · exact uniformPmf_sum _ hq
  · rename_i m hm
    rw [sum_map_ite_count]
    have hmem : some m ∈ q := by
      rcases foldl_omax2_some_mem q none m hm with h | h
      · exact absurd h (by simp)
      · exact h
    have hcp : 0 < q.countP (fun o => decide (o = some m)) :=
      List.countP_pos_iff.mpr ⟨some m, hmem, by simp⟩
    rw [mul_one_div, div_self]
    exact Nat.cast_ne_zero.mpr (Nat.pos_iff_ne_zero.mp hcp)

theorem softmaxZero_none_slot (q : List (Option ℚ)) (k : Nat)
    (hk : k < q.length) (hnone : q.getD k none = none)
    (m : ℚ) (hm : omax q = some m) : (softmaxZero q).getD k 0 = 0 := by
  unfold softmaxZero
  rw [hm]
  show (q.map (fun o =>
    if o = some m then 1 / ((q.countP (fun o => decide (o = some m))) : ℚ)
    else 0)).getD k 0 = 0
  rw [getD_map_oq _ _ _ hk, hnone]
  simp

theorem weightsOf_nonneg (w : ℚ → ℚ) (q : List (Option ℚ))
    (hw : ∀ x, 0 < w x) : ∀ y ∈ weightsOf w q, 0 ≤ y := by
  intro y hy
  rw [weightsOf, List.mem_map] at hy
  obtain ⟨o, ho, rfl⟩ := hy
  cases o with
  | none => simp
  | some x => simpa using (hw x).le

theorem weightsOf_sum_pos (w : ℚ → ℚ) (q : List (Option ℚ))
    (hw : ∀ x, 0 < w x) (v : ℚ) (hv : some v ∈ q) :
    0 < (weightsOf w q).sum := by
  have hmem : w v ∈ weightsOf w q := by
    rw [weightsOf, List.mem_map]
    exact ⟨some v, hv, by simp⟩
  exact sum_pos_of_mem _ (weightsOf_nonneg w q hw) (w v) hmem (hw v)

theorem softmaxPos_none_slot (w : ℚ → ℚ) (q : List (Option ℚ)) (k : Nat)
    (hk : k < q.length) (hnone : q.getD k none = none)
    (hw : ∀ x, 0 < w x) (v : ℚ) (hv : some v ∈ q) :
    (softmaxPos w q).getD k 0 = 0 := by
  have hs : (weightsOf w q).sum ≠ 0 := (weightsOf_sum_pos w q hw v hv).ne'
  rw [softmaxPos, if_neg hs,
    getD_map_qq _ _ _ (by rw [weightsOf, List.length_map]; exact hk),
    weightsOf, getD_map_oq _ _ _ hk, hnone]
  simp

theorem softmaxPos_all_none (w : ℚ → ℚ) (q : List (Option ℚ))
    (h : ∀ o ∈ q, o = none) : softmaxPos w q = uniformPmf q.length := by
  have hz : (weightsOf w q).sum = 0 := by
    have : weightsOf w q = q.map (fun _ => 0) := by
      rw [weightsOf]
      exact List.map_congr_left (fun o ho => by rw [h o ho]; rfl)
    rw [this]
    induction q with
    | nil => rfl
    | cons o q ih => simpa using ih (fun p hp => h p (List.mem_cons_of_mem _ hp))
  rw [softmaxPos, if_pos hz]

/-- At temperature zero `softmax` always yields a probability vector. -/
theorem softmaxZero_prob (q : List (Option ℚ)) (hq : 0 < q.length) :
    IsProbVec q.length (softmaxZero q) :=
  ⟨softmaxZero_length q, softmaxZero_nonneg q, softmaxZero_sum q hq⟩

theorem uniformPmf_prob (n : Nat) (h : 0 < n) : IsProbVec n (uniformPmf n) :=
  ⟨uniformPmf_length n, uniformPmf_nonneg n, uniformPmf_sum n h⟩

/-- On an all-`-inf` vector, `softmax` is uniform at every temperature. -/
theorem softmax_all_none (q : List (Option ℚ)) (temp : ℚ) (w : ℚ → ℚ)
    (h : ∀ o ∈ q, o = none) : softmax q temp w = uniformPmf q.length := by
  rw [softmax]
  by_cases ht : temp = 0
  · rw [if_pos ht, softmaxZero, omax_all_none q h]
  · rw [if_neg ht, softmaxPos_all_none w q h]

end PolicyLemmas

section GlueLemmas

/-- Direct children of a well-formed tree's root are traversed non-root
nodes. -/
theorem root_child_mem (t : SearchTree) (h : WF t) (c : Nat)
    (hc : c ∈ t.childrenOf t.root) : c ∈ t.bfs ∧ c ≠ t.root := by
  have hr : t.root ∈ t.bfs :=
    root_mem_bfs t (Nat.lt_of_le_of_lt (Nat.zero_le _) h.1)
  exact ⟨child_mem_bfs t h _ _ hr hc, child_ne_root t h _ _ hr hc⟩

/-- Every non-root traversed node has a stored return after the backup. -/
theorem compute_return_child_R_some (t : SearchTree) (df : ℚ) (h : WF t)
    (i : Nat) (hi : i ∈ t.bfs) (hroot : i ≠ t.root) :
    ((compute_return t df).dataOf i).R.isSome := by
  rw [compute_return_spec t df h i hi hroot]
  rfl

theorem mem_of_getD_some (q : List (Option ℚ)) (k : Nat) (hk : k < q.length)
    (v : ℚ) (h : q.getD k none = some v) : some v ∈ q := by
  rw [List.getD_eq_getElem _ _ hk] at h
  rw [← h]
  exact List.getElem_mem hk

theorem omax_isSome_of_mem (q : List (Option ℚ)) (v : ℚ)
    (hv : some v ∈ q) : ∃ m, omax q = some m := by
  cases h : omax q with
  | none => exact absurd ((foldl_omax2_none_forall q none h).2 _ hv) (by simp)
  | some m => exact ⟨m, rfl⟩

end GlueLemmas

/-- C1: for every well-formed tree and every discount factor, after
`compute_return(tree, discount_factor)` each non-root leaf node's stored
return equals its own reward, and each non-root internal node's stored
return equals its own reward plus `discount_factor` times the maximum of
its children's stored returns — the bottom-up Bellman-max backup computed
children-before-parents by the reverse breadth-first traversal. -/
theorem compute_return_bellman (t : SearchTree) (df : ℚ) (h : WF t)
    (i : Nat) (hi : i ∈ t.bfs) (hroot : i ≠ t.root) :
    (t.childrenOf i = [] →
      ((compute_return t df).dataOf i).R = some ((t.dataOf i).r)) ∧
    (t.childrenOf i ≠ [] →
      ((compute_return t df).dataOf i).R =
        some ((t.dataOf i).r + df * npMax ((t.childrenOf i).map
          (getRD (compute_return t df).nodes)))) := by
  have hR : ((compute_return t df).dataOf i).R
      = some (if (t.childrenOf i).isEmpty then (t.dataOf i).r
          else (t.dataOf i).r + df * npMax ((t.childrenOf i).map
            (getRD (compute_return t df).nodes))) := by
    rw [compute_return_spec t df h i hi hroot]
  constructor
  · intro hleaf
    rw [hR, hleaf]
    rfl
  · intro hne
    rw [hR, if_neg]
    simp only [List.isEmpty_iff]
    exact hne

/-- Witness for C1 on the concrete example tree: node `1` is internal and
receives reward plus discounted maximum of its children's returns. -/
theorem compute_return_bellman_witness :
    ((compute_return exampleTree 1).dataOf 1).R =
      some ((exampleTree.dataOf 1).r + 1 * npMax ((exampleTree.childrenOf 1).map
        (getRD (compute_return exampleTree 1).nodes))) :=
  (compute_return_bellman exampleTree 1 (by decide) 1 (by decide)
    (by decide)).2 (by decide)

/-- C3 counterexample: on a single-node tree the traversal (built with
`include_root=False`) is empty, so the root receives no stored return at
all; its `R` entry stays absent instead of becoming its reward. -/
theorem compute_return_single_root_cex :
    ¬ (((compute_return oneNodeTree 1).dataOf oneNodeTree.root).R
        = some ((oneNodeTree.dataOf oneNodeTree.root).r)) := by
  decide

/-- C3 (amended): on a single-node tree `compute_return` is a no-op — the
root, excluded from the traversal, is never assigned a stored return, and
the tree is returned exactly as it was. -/
theorem compute_return_single_node (d : NodeData) (df : ℚ) :
    compute_return ⟨[(d, [])], 0⟩ df = ⟨[(d, [])], 0⟩ := rfl

/-- Witness for the amended C3 at a concrete node and discount factor. -/
theorem compute_return_single_node_witness :
    compute_return oneNodeTree (99 / 100) = oneNodeTree :=
  compute_return_single_node ⟨0, 5, none, false, 0⟩ (99 / 100)

/-- C7: `compute_return` is idempotent — running it a second time on the
(structurally unchanged) result leaves every node's stored data identical. -/
theorem compute_return_idempotent (t : SearchTree) (df : ℚ) (h : WF t) :
    compute_return (compute_return t df) df = compute_return t df := by
  have hn : backupRun df (compute_return t df).nodes
      ((compute_return t df).iter_breadth_first_reverse)
      = (compute_return t df).nodes := by
    rw [compute_return_order]
    exact backupRun_idem df _ t.nodes (order_pairwise t h) (order_irr t h)
  have he : compute_return (compute_return t df) df
      = { compute_return t df with
            nodes := backupRun df (compute_return t df).nodes
              ((compute_return t df).iter_breadth_first_reverse) } := rfl
  rw [he, hn]

/-- Witness for C7 on the concrete example tree. -/
theorem compute_return_idempotent_witness :
    compute_return (compute_return exampleTree 1) 1 = compute_return exampleTree 1 :=
  compute_return_idempotent exampleTree 1 (by decide)

/-- C8: `compute_return` never writes to the root node's data (the
traversal excludes the root), and on every node it can only modify the
stored-return entry `R`: the root index, the arena size, the children
lists, and the `a`, `r`, `done`, `obs` entries of every node are exactly
unchanged. -/
theorem compute_return_frame (t : SearchTree) (df : ℚ) :
    (compute_return t df).root = t.root ∧
    (compute_return t df).nodes.length = t.nodes.length ∧
    (compute_return t df).dataOf t.root = t.dataOf t.root ∧
    ∀ j, (compute_return t df).childrenOf j = t.childrenOf j ∧
      ((compute_return t df).dataOf j).a = (t.dataOf j).a ∧
      ((compute_return t df).dataOf j).r = (t.dataOf j).r ∧
      ((compute_return t df).dataOf j).done = (t.dataOf j).done ∧
      ((compute_return t df).dataOf j).obs = (t.dataOf j).obs :=
  ⟨rfl, compute_return_length t df, compute_return_root_data t df,
    fun j => ⟨compute_return_children t df j,
      (compute_return_fields t df j).1,
      (compute_return_fields t df j).2.1,
      (compute_return_fields t df j).2.2.1,
      (compute_return_fields t df j).2.2.2⟩⟩

/-- C4 counterexample: on a tree whose root has no children at all, no
probability vector can give every action probability `0`; concretely, with
one action and temperature `0` the childless action `0` receives
probability `1`, not `0`. -/
theorem softmax_policy_unreached_cex :
    oneNodeTree.childrenOf oneNodeTree.root = [] ∧
    ((softmax_Q_tree_policy oneNodeTree 1 1 0 (fun _ => 1)).1).getD 0 0 ≠ 0 := by
  constructor
  · decide
  · norm_num [softmax_Q_tree_policy, softmax, softmaxZero, buildQ, omax, omax2,
      uniformPmf, compute_return, SearchTree.iter_breadth_first_reverse,
      SearchTree.bfs, bfsAux, SearchTree.childrenOf, SearchTree.dataOf,
      backupRun, childAt, dataAt, oneNodeTree, SearchTree.root]

/-- C4 (amended): for every well-formed tree whose root has at least one
child, with pairwise-distinct root-child actions all below `n_actions`,
and for temperature `0` or any positive-weight finite temperature: every
action with no corresponding direct child of the root receives probability
exactly `0` (its `-inf` logit is never overwritten), and each action with
a root child has its Q slot set to that child's backed-up return before
the softmax. -/
theorem softmax_policy_unreached (t : SearchTree) (n : Nat) (df temp : ℚ)
    (w : ℚ → ℚ) (h : WF t)
    (hne : t.childrenOf t.root ≠ [])
    (hact : ∀ c ∈ t.childrenOf t.root, (t.dataOf c).a < n)
    (hnd : ((t.childrenOf t.root).map (fun d => (t.dataOf d).a)).Nodup)
    (hw : temp = 0 ∨ ∀ x, 0 < w x) :
    (∀ k, k < n → (∀ c ∈ t.childrenOf t.root, (t.dataOf c).a ≠ k) →
      ((softmax_Q_tree_policy t n df temp w).1).getD k 0 = 0) ∧
    (∀ c ∈ t.childrenOf t.root,
      (buildQ (compute_return t df) n).getD ((t.dataOf c).a) none
        = ((compute_return t df).dataOf c).R) := by
  have hroot : (compute_return t df).root = t.root := rfl
  have hch : (compute_return t df).childrenOf ((compute_return t df).root)
      = t.childrenOf t.root := compute_return_children t df t.root
  have ha : ∀ c, ((compute_return t df).dataOf c).a = (t.dataOf c).a :=
    fun c => (compute_return_fields t df c).1
  have hbuild : ∀ c ∈ t.childrenOf t.root,
      (buildQ (compute_return t df) n).getD ((t.dataOf c).a) none
        = ((compute_return t df).dataOf c).R := by
    intro c hc
    rw [← ha c]
    refine buildQ_mem (compute_return t df) n c (by rw [hch]; exact hc) ?_ ?_
    · rw [hch]
      have : ((t.childrenOf t.root).map
            (fun d => ((compute_return t df).dataOf d).a))
          = ((t.childrenOf t.root).map (fun d => (t.dataOf d).a)) :=
        List.map_congr_left (fun d _ => ha d)
      rw [this]
      exact hnd
    · rw [ha c]
      exact hact c hc
  refine ⟨?_, hbuild⟩
  intro k hk hnochild
  -- the Q vector holds `-inf` at slot `k` …
  have hqnone : (buildQ (compute_return t df) n).getD k none = none := by
    apply buildQ_not_mem
    intro c hc
    rw [hch] at hc
    rw [ha c]
    exact hnochild c hc
  have hklen : k < (buildQ (compute_return t df) n).length := by
    rw [length_buildQ]
    exact hk
  -- … and some slot holds a genuine value
  obtain ⟨c0, hc0⟩ := List.exists_mem_of_ne_nil _ hne
  obtain ⟨hc0m, hc0r⟩ := root_child_mem t h c0 hc0
  obtain ⟨v, hv⟩ := Option.isSome_iff_exists.mp
    (compute_return_child_R_some t df h c0 hc0m hc0r)
  have hvq : some v ∈ buildQ (compute_return t df) n := by
    apply mem_of_getD_some _ ((t.dataOf c0).a)
      (by rw [length_buildQ]; exact hact c0 hc0)
    rw [hbuild c0 hc0, hv]
  show (softmax (buildQ (compute_return t df) n) temp w).getD k 0 = 0
  by_cases ht : temp = 0
  · rw [softmax, if_pos ht]
    obtain ⟨m, hm⟩ := omax_isSome_of_mem _ v hvq
    exact softmaxZero_none_slot _ k hklen hqnone m hm
  · rcases hw with hw0 | hwpos
    · exact absurd hw0 ht
    · rw [softmax, if_neg ht]
      exact softmaxPos_none_slot w _ k hklen hqnone hwpos v hvq

/-- Witness for the amended C4: in the two-node tree only action `0` has a
root child, so action `1` receives probability `0` at temperature zero. -/
theorem softmax_policy_unreached_witness :
    ((softmax_Q_tree_policy pairTree 2 1 0 (fun _ => 1)).1).getD 1 0 = 0 :=
  (softmax_policy_unreached pairTree 2 1 0 (fun _ => 1) (by decide) (by decide)
    (by decide) (by decide) (Or.inl rfl)).1 1 (by decide) (by decide)

/-- C5: with a positive number of actions, `softmax_Q_tree_policy` at
temperature `0` always returns a well-defined probability vector, and on a
tree whose root has no children (every logit stays `-inf`) it returns, at
every temperature, the uniform distribution — also a probability vector —
rather than raising or producing a division-by-zero. -/
theorem softmax_policy_defined (n : Nat) (hn : 0 < n) :
    (∀ (t : SearchTree) (df : ℚ) (w : ℚ → ℚ),
      IsProbVec n (softmax_Q_tree_policy t n df 0 w).1) ∧
    (∀ (t : SearchTree) (df temp : ℚ) (w : ℚ → ℚ),
      t.childrenOf t.root = [] →
      (softmax_Q_tree_policy t n df temp w).1 = uniformPmf n) ∧
    IsProbVec n (uniformPmf n) := by
  refine ⟨?_, ?_, uniformPmf_prob n hn⟩
  · intro t df w
    show IsProbVec n (softmax (buildQ (compute_return t df) n) 0 w)
    rw [softmax, if_pos rfl]
    have hlen : (buildQ (compute_return t df) n).length = n := length_buildQ _ n
    have := softmaxZero_prob (buildQ (compute_return t df) n) (by rw [hlen]; exact hn)
    rwa [hlen] at this
  · intro t df temp w hchildless
    have hq : buildQ (compute_return t df) n = List.replicate n none := by
      rw [buildQ,
        show (compute_return t df).childrenOf ((compute_return t df).root)
            = t.childrenOf t.root from compute_return_children t df t.root,
        hchildless, List.foldl_nil]
    show softmax (buildQ (compute_return t df) n) temp w = uniformPmf n
    rw [softmax_all_none _ temp w
        (by rw [hq]; exact fun o ho => List.eq_of_mem_replicate ho),
      hq, List.length_replicate]

/-- Witness for C5 at two actions on the childless single-node tree. -/
theorem softmax_policy_defined_witness :
    IsProbVec 2 (softmax_Q_tree_policy oneNodeTree 2 1 0 (fun _ => 1)).1 :=
  (softmax_policy_defined 2 (by decide)).1 oneNodeTree 1 (fun _ => 1)

/-- C6: on the spec's binary example tree (discount factor `1`, rewards
`0` at depth one, `1` at the depth-two node under the action-`0` branch,
`0` under the action-`1` branch), `compute_return` assigns return `1` to
the depth-one child on the rewarding branch, and the temperature-`0`
policy puts probability `1` on that child's root action. -/
theorem example_tree_return_policy :
    ((compute_return exampleTree 1).dataOf 1).R = some 1 ∧
    (softmax_Q_tree_policy exampleTree 2 1 0 (fun _ => 1)).1 = [1, 0] := by
  have h1 : compute_return exampleTree 1 =
      ⟨[(⟨0, 0, none, false, 10⟩, [1, 2]),
        (⟨0, 0, some 1, false, 11⟩, [3]),
        (⟨1, 0, some 0, false, 12⟩, [4]),
        (⟨0, 1, some 1, false, 13⟩, []),
        (⟨0, 0, some 0, false, 14⟩, [])], 0⟩ := by
    norm_num [compute_return, SearchTree.iter_breadth_first_reverse,
      SearchTree.bfs, bfsAux, SearchTree.childrenOf, backupRun, backupStep,
      backupVal, updR, dataAt, childAt, getRD, npMax, exampleTree, max_def]
  constructor
  · rw [h1]
    norm_num [SearchTree.dataOf, dataAt]
  · show softmax (buildQ (compute_return exampleTree 1) 2) 0 (fun _ => 1) = [1, 0]
    rw [h1]
    norm_num [softmax, softmaxZero, buildQ, omax, omax2, uniformPmf,
      SearchTree.childrenOf, SearchTree.dataOf, dataAt, childAt,
      List.replicate_succ, max_def, List.countP_cons, List.countP_nil]

/-- C9: `softmax_Q_tree_policy` is not a pure read of the tree — it first
invokes `compute_return`, so the tree it hands back is exactly
`compute_return`'s result, with a stored return written on every non-root
node; callers need not run the backup separately. -/
theorem softmax_policy_mutates (t : SearchTree) (n : Nat) (df temp : ℚ)
    (w : ℚ → ℚ) (h : WF t) :
    (softmax_Q_tree_policy t n df temp w).2 = compute_return t df ∧
    ∀ i ∈ t.bfs, i ≠ t.root →
      (((softmax_Q_tree_policy t n df temp w).2).dataOf i).R.isSome := by
  refine ⟨rfl, fun i hi hr => ?_⟩
  show ((compute_return t df).dataOf i).R.isSome
  exact compute_return_child_R_some t df h i hi hr

/-- Witness for C9 on the concrete example tree at node `1`. -/
theorem softmax_policy_mutates_witness :
    (((softmax_Q_tree_policy exampleTree 2 1 0 (fun _ => 1)).2).dataOf 1).R.isSome :=
  (softmax_policy_mutates exampleTree 2 1 0 (fun _ => 1) (by decide)).2 1
    (by decide) (by decide)

/-- C2 counterexample: with the driver's stop condition `len(tree) == N`
the planner can halt with fewer than `N` nodes when the reachable space is
exhausted first (here no expansion is possible at all, the situation of a
terminal root), so a planning call need not end with exactly `N` nodes. -/
theorem plan_exact_budget_cex :
    (plan (fun u => u.size == 3) (fun _ => none) 10 oneNodeTree).size ≠ 3 := by
  decide

/-- C2 (amended): with the stop condition `len(tree) == N` checked between
single-node expansions, the planner never overshoots: entering with at
most `N` nodes (as in the drivers, also with cached nodes) it halts with
at most `N` nodes; and it halts with exactly `N` whenever expansion keeps
succeeding below the budget and the fuel covers the missing nodes. -/
theorem plan_budget (N fuel : Nat) (t : SearchTree)
    (expandOne : SearchTree → Option SearchTree)
    (hexp : ∀ u u', expandOne u = some u' → u'.size = u.size + 1)
    (hle : t.size ≤ N) :
    (plan (fun u => u.size == N) expandOne fuel t).size ≤ N ∧
    ((∀ u, u.size < N → (expandOne u).isSome) → N ≤ t.size + fuel →
      (plan (fun u => u.size == N) expandOne fuel t).size = N) := by
  induction fuel generalizing t with
  | zero =>
      refine ⟨hle, fun _ hf => ?_⟩
      show t.size = N
      omega
  | succ m ih =>
      by_cases hstop : ((fun u : SearchTree => u.size == N) t)
      · have he : t.size = N := Nat.eq_of_beq_eq_true (by simpa using hstop)
        have heq : plan (fun u => u.size == N) expandOne (m + 1) t = t := by
          rw [plan, if_pos hstop]
        rw [heq]
        exact ⟨Nat.le_of_eq he, fun _ _ => he⟩
      · have hne : t.size ≠ N := by simpa using hstop
        have hlt : t.size < N := Nat.lt_of_le_of_ne hle hne
        cases hexto : expandOne t with
        | none =>
            have heq : plan (fun u => u.size == N) expandOne (m + 1) t = t := by
              rw [plan, if_neg hstop, hexto]
            rw [heq]
            refine ⟨hle, fun hsucc hf => ?_⟩
            have habs := hsucc t hlt
            rw [hexto] at habs
            cases habs
        | some t' =>
            have hsz : t'.size = t.size + 1 := hexp t t' hexto
            have hle' : t'.size ≤ N := by omega
            have heq : plan (fun u => u.size == N) expandOne (m + 1) t
                = plan (fun u => u.size == N) expandOne m t' := by
              rw [plan, if_neg hstop, hexto]
            rw [heq]
            obtain ⟨ih1, ih2⟩ := ih t' hle'
            exact ⟨ih1, fun hsucc hf => ih2 hsucc (by omega)⟩

/-- Witness for the amended C2: growing a one-node tree to budget `2`
with fuel `3` stops at exactly `2` nodes. -/
theorem plan_budget_witness :
    (plan (fun u => u.size == 2) growOne 3 oneNodeTree).size = 2 :=
  (plan_budget 2 3 oneNodeTree growOne
    (fun u u' h => by
      injection h with h'
      rw [← h']
      simp [SearchTree.size])
    (by decide)).2 (fun u _ => by simp [growOne]) (by decide)

/-- C10: every call to `planning_step` appends exactly one record to the
supplied dataset — holding the pre-step root's observation and the
temperature-0 tree policy computed over the post-planning tree — and
returns the pair `(reward, done)` read off the new root's data produced
by the actor's step on the sampled action.  The actor-step contract
(`prev_root_data` is the pre-step root's data) is the hypothesis `hprev`,
taken from the spec's Tree Actor interface. -/
theorem planning_step_appends (tree : SearchTree)
    (planFn : (SearchTree → Bool) → SearchTree → SearchTree)
    (stepFn : SearchTree → Nat → Bool → NodeData × NodeData × SearchTree)
    (sample : List ℚ → Nat) (dataset : List Record)
    (tree_budget : Nat) (cache_subtree : Bool) (branching_factor : Nat)
    (discount_factor : ℚ)
    (hprev : ∀ u a c, (stepFn u a c).1 = u.dataOf u.root) :
    (planning_step tree planFn stepFn sample dataset tree_budget cache_subtree
        branching_factor discount_factor).2.1
      = dataset ++
          [⟨((planFn (fun u => u.size - tree.size == tree_budget) tree).dataOf
               (planFn (fun u => u.size - tree.size == tree_budget) tree).root).obs,
            (softmax_Q_tree_policy
              (planFn (fun u => u.size - tree.size == tree_budget) tree)
              branching_factor discount_factor 0 (fun _ => 1)).1⟩] ∧
    (planning_step tree planFn stepFn sample dataset tree_budget cache_subtree
        branching_factor discount_factor).2.1.length = dataset.length + 1 ∧
    (planning_step tree planFn stepFn sample dataset tree_budget cache_subtree
        branching_factor discount_factor).1
      = ((stepFn
            (compute_return (planFn (fun u => u.size - tree.size == tree_budget) tree)
              discount_factor)
            (sample ((softmax_Q_tree_policy
              (planFn (fun u => u.size - tree.size == tree_budget) tree)
              branching_factor discount_factor 0 (fun _ => 1)).1))
            cache_subtree).2.1.r,
         (stepFn
            (compute_return (planFn (fun u => u.size - tree.size == tree_budget) tree)
              discount_factor)
            (sample ((softmax_Q_tree_policy
              (planFn (fun u => u.size - tree.size == tree_budget) tree)
              branching_factor discount_factor 0 (fun _ => 1)).1))
            cache_subtree).2.1.done) := by
  refine ⟨?_, ?_, rfl⟩
  · show dataset ++
        [⟨((stepFn
              (compute_return (planFn (fun u => u.size - tree.size == tree_budget) tree)
                discount_factor)
              (sample ((softmax_Q_tree_policy
                (planFn (fun u => u.size - tree.size == tree_budget) tree)
                branching_factor discount_factor 0 (fun _ => 1)).1))
              cache_subtree).1).obs,
          (softmax_Q_tree_policy
            (planFn (fun u => u.size - tree.size == tree_budget) tree)
            branching_factor discount_factor 0 (fun _ => 1)).1⟩] = _
    rw [hprev,
      show (compute_return (planFn (fun u => u.size - tree.size == tree_budget) tree)
            discount_factor).dataOf
          (compute_return (planFn (fun u => u.size - tree.size == tree_budget) tree)
            discount_factor).root
        = (planFn (fun u => u.size - tree.size == tree_budget) tree).dataOf
            (planFn (fun u => u.size - tree.size == tree_budget) tree).root
        from compute_return_root_data
          (planFn (fun u => u.size - tree.size == tree_budget) tree) discount_factor]
  · show (dataset ++ [_]).length = dataset.length + 1
    rw [List.length_append, List.length_cons, List.length_nil]

/-- Witness for C10 with a trivial planner and an actor step that returns
the current root unchanged. -/
theorem planning_step_appends_witness :
    (planning_step exampleTree (fun _ u => u)
        (fun u _ _ => (u.dataOf u.root, default, u))
        (fun _ => 0) [] 5 true 2 1).2.1.length = ([] : List Record).length + 1 :=
  (planning_step_appends exampleTree (fun _ u => u)
    (fun u _ _ => (u.dataOf u.root, default, u))
    (fun _ => 0) [] 5 true 2 1 (fun _ _ _ => rfl)).2.1
